import Mathlib

/-!
Verification of the YT-to-LinkedIn service layer.

This file gives a shallow embedding, in Lean, of the string-processing
core of the repository's four services:

* `TranscriptService.extract_video_id`, `_parse_duration`, `_clean_transcript`
  (src/app/services/transcript_service.py)
* `SummaryService.generate_summary` and `_parse_response`
  (src/app/services/summary_service.py)
* `PostGenerationService.generate_post` and `_extract_hashtags`
  (src/app/services/post_generation_service.py)
* `OutputService.format_output`
  (src/app/services/output_service.py)

Python built-ins used by that code (`str.split`, `str.strip`, `str.lstrip`,
`int`, and the few fixed regular expressions fed to `re.sub`/`re.findall`)
are modelled explicitly below, over `List Char`.  Character classes (`\w`,
`\s`, `str.strip`'s whitespace) are modelled at ASCII granularity: `\w` is
letters/digits/underscore and whitespace is the six ASCII whitespace
characters.  Machine-level concerns (Python's arbitrary-precision ints map
to `Int`/`Nat`) do not arise; the one float in the code (the read-time
estimate, `character_count / 1325`) is modelled with exact integer
division, with which it agrees on all realistic lengths.
-/

namespace YTL

/-! ## Models of the Python string built-ins -/

/-- Python's ASCII whitespace characters, the class used by `str.strip()`,
`str.split()` (no argument) and the regex class `\s`. -/
def isPySpace (c : Char) : Bool :=
  c = ' ' || c = '\t' || c = '\n' || c = '\r' || c = '\x0b' || c = '\x0c'

/-- Regex class `\w` (word character), at ASCII granularity. -/
def isWordChar (c : Char) : Bool :=
  c.isAlphanum || c = '_'

/-- Leading-whitespace strip, on character lists. -/
def stripLeft (l : List Char) : List Char := l.dropWhile isPySpace

/-- Trailing-whitespace strip, on character lists. -/
def stripRight (l : List Char) : List Char := (l.reverse.dropWhile isPySpace).reverse

/-- Python `str.strip()`, on character lists. -/
def stripList (l : List Char) : List Char := stripRight (stripLeft l)

/-- Python `str.strip()`. -/
def pyStrip (s : String) : String := String.mk (stripList s.data)

/-- Split a list at the first occurrence of `sep`: returns the part before
the occurrence and the part after it, or `none` when `sep` does not occur.
This is the single step of Python's `str.split(sep)`. -/
def splitFirst (sep : List Char) : List Char → Option (List Char × List Char)
  | [] => if sep.isPrefixOf ([] : List Char) then some ([], []) else none
  | c :: cs =>
    if sep.isPrefixOf (c :: cs) then some ([], (c :: cs).drop sep.length)
    else
      match splitFirst sep cs with
      | some (a, b) => some (c :: a, b)
      | none => none

theorem splitFirst_append {sep : List Char} :
    ∀ {l a b : List Char}, splitFirst sep l = some (a, b) → l = a ++ sep ++ b := by
  intro l
  induction l with
  | nil =>
    intro a b h
    simp only [splitFirst] at h
    split at h
    · rename_i hp
      have : sep = [] := by
        cases sep with
        | nil => rfl
        | cons x xs => simp [List.isPrefixOf] at hp
      cases h
      simp [this]
    · cases h
  | cons c cs ih =>
    intro a b h
    simp only [splitFirst] at h
    split at h
    · rename_i hp
      rw [List.isPrefixOf_iff_prefix] at hp
      obtain ⟨t, ht⟩ := hp
      cases h
      simpa [← ht] using ht.symm
    · cases hrec : splitFirst sep cs with
      | none => rw [hrec] at h; cases h
      | some p =>
        obtain ⟨a', b'⟩ := p
        rw [hrec] at h
        cases h
        have := ih hrec
        simp [this]

theorem splitFirst_some_length {sep l a b : List Char} (hs : sep ≠ [])
    (h : splitFirst sep l = some (a, b)) : b.length < l.length := by
  have := splitFirst_append h
  subst this
  have : 0 < sep.length := List.length_pos.mpr hs
  simp only [List.length_append]
  omega

/-- Python `str.split(sep)` for a non-empty separator, on character lists.
(Python raises on an empty separator; the model returns `[l]` there,
a case none of the embedded code exercises.) -/
def pySplit (sep l : List Char) : List (List Char) :=
  if hs : sep = [] then [l]
  else
    match h : splitFirst sep l with
    | none => [l]
    | some (a, b) => a :: pySplit sep b
termination_by l.length
decreasing_by exact splitFirst_some_length hs h

/-- If the separator does not occur, `pySplit` returns the whole input. -/
theorem pySplit_of_none {sep l : List Char} (h : splitFirst sep l = none) :
    pySplit sep l = [l] := by
  rw [pySplit]
  split
  · rfl
  · split
    · rfl
    · rename_i heq
      rw [h] at heq
      cases heq

theorem pySplit_of_some {sep l a b : List Char} (hs : sep ≠ [])
    (h : splitFirst sep l = some (a, b)) :
    pySplit sep l = a :: pySplit sep b := by
  rw [pySplit]
  split
  · exact absurd ‹sep = []› hs
  · split
    · rename_i heq
      rw [h] at heq
      cases heq
    · rename_i a' b' heq
      rw [h] at heq
      cases heq
      rfl

/-- Split on a single character, phrased with `takeWhile`/`dropWhile`
(the "first field is everything up to the next separator" view used by the
spec-side definitions). -/
def splitChar (c : Char) (l : List Char) : List (List Char) :=
  match h : l.dropWhile (· != c) with
  | [] => [l.takeWhile (· != c)]
  | _ :: rs => l.takeWhile (· != c) :: splitChar c rs
termination_by l.length
decreasing_by
  have hle := (List.dropWhile_suffix (l := l) (· != c)).length_le
  rw [h] at hle
  simp only [List.length_cons] at hle
  omega

theorem splitFirst_singleton (c : Char) (l : List Char) :
    splitFirst [c] l =
      match l.dropWhile (· != c) with
      | [] => none
      | _ :: rs => some (l.takeWhile (· != c), rs) := by
  induction l with
  | nil => simp [splitFirst, List.isPrefixOf]
  | cons x xs ih =>
    by_cases hx : x = c
    · subst hx
      simp [splitFirst, List.isPrefixOf, List.dropWhile, List.takeWhile]
    · have hb : (x != c) = true := by simp [hx]
      have hstep : splitFirst [c] (x :: xs) =
          match splitFirst [c] xs with
          | some (a, b) => some (x :: a, b)
          | none => none := by
        simp only [splitFirst, List.isPrefixOf]
        rw [if_neg]
        simp [Ne.symm hx]
      rw [hstep, ih, List.dropWhile_cons, List.takeWhile_cons, hb]
      simp only [if_true]
      cases hd : xs.dropWhile (· != c) <;> simp

theorem pySplit_singleton (c : Char) (l : List Char) :
    pySplit [c] l = splitChar c l := by
  induction l using splitChar.induct c with
  | case1 l h =>
    have hsf : splitFirst [c] l = none := by rw [splitFirst_singleton, h]
    rw [pySplit_of_none hsf, splitChar, h]
    have := List.takeWhile_append_dropWhile (p := (· != c)) (l := l)
    rw [h, List.append_nil] at this
    rw [this]
  | case2 l x rs h ih =>
    have hsf : splitFirst [c] l = some (l.takeWhile (· != c), rs) := by
      rw [splitFirst_singleton, h]
    rw [pySplit_of_some (by simp) hsf, splitChar, h, ih]

theorem splitChar_head (c : Char) (l : List Char) :
    (splitChar c l).head? = some (l.takeWhile (· != c)) := by
  rw [splitChar]
  cases h : l.dropWhile (· != c) <;> simp [h]

/-- Index of the first occurrence of `sep` in a list, if any: the
spec-side reading of "locate the literal marker". -/
def occIdx (sep : List Char) : List Char → Option Nat
  | [] => if sep.isPrefixOf ([] : List Char) then some 0 else none
  | c :: cs => if sep.isPrefixOf (c :: cs) then some 0 else (occIdx sep cs).map (· + 1)

theorem occIdx_none_iff (sep : List Char) :
    ∀ l, occIdx sep l = none ↔ splitFirst sep l = none := by
  intro l
  induction l with
  | nil => simp only [occIdx, splitFirst]; split <;> simp
  | cons c cs ih =>
    simp only [occIdx, splitFirst]
    split
    · simp
    · cases ho : occIdx sep cs with
      | none =>
        have hs := ih.mp ho
        simp [hs]
      | some i =>
        have hne : splitFirst sep cs ≠ none := by
          intro hn
          rw [← ih, ho] at hn
          cases hn
        cases hs : splitFirst sep cs with
        | none => exact absurd hs hne
        | some p =>
          obtain ⟨a, b⟩ := p
          simp

theorem splitFirst_occIdx {sep l a b : List Char}
    (h : splitFirst sep l = some (a, b)) : occIdx sep l = some a.length := by
  induction l generalizing a b with
  | nil =>
    simp only [splitFirst] at h
    split at h
    · rename_i hp
      cases h
      simp only [occIdx, if_pos hp]
      have : sep = [] := by
        cases sep with
        | nil => rfl
        | cons x xs => simp [List.isPrefixOf] at hp
      rfl
    · cases h
  | cons c cs ih =>
    simp only [splitFirst] at h
    simp only [occIdx]
    split at h
    · rename_i hp
      cases h
      simp [hp]
    · rename_i hp
      cases hrec : splitFirst sep cs with
      | none => rw [hrec] at h; cases h
      | some p =>
        obtain ⟨a', b'⟩ := p
        rw [hrec] at h
        cases h
        rw [if_neg hp, ih hrec]
        rfl

/-- Python `str.split()` with no argument: split on whitespace runs,
discarding empty fields.  Used for the summary word count. -/
def pyWords (l : List Char) : List (List Char) :=
  match h : l.dropWhile isPySpace with
  | [] => []
  | c :: cs => (c :: cs.takeWhile (fun x => !isPySpace x)) ::
      pyWords (cs.dropWhile (fun x => !isPySpace x))
termination_by l.length
decreasing_by
  have h1 := (List.dropWhile_suffix (l := l) isPySpace).length_le
  rw [h] at h1
  have h2 := (List.dropWhile_suffix (l := cs) (fun x => !isPySpace x)).length_le
  simp only [List.length_cons] at h1
  omega

/-! ## SummaryService (src/app/services/summary_service.py) -/

/-- The `"SUMMARY:"` marker, as characters. -/
def sumMark : List Char := "SUMMARY:".data

/-- The `"KEY POINTS:"` marker, as characters. -/
def kpMark : List Char := "KEY POINTS:".data

/-- Python `point.strip().lstrip("- ")`: after the whitespace strip,
remove every leading character belonging to the set `{'-', ' '}`. -/
def lstripDashSpace (l : List Char) : List Char :=
  l.dropWhile (fun c => c = '-' || c = ' ')

/-- The `KEY POINTS:` stage of `_parse_response`
(summary_service.py:160-171): split the stripped text after `SUMMARY:` on
`"KEY POINTS:"`; when present, field 0 (stripped) is the summary and the
lines of field 1 (stripped, each line stripped and `lstrip("- ")`-ed,
blank lines dropped) are the key points. -/
def parse_response_kp (content : List Char) : String × List String :=
  match pySplit kpMark content with
  | p0 :: p1 :: _ =>
    (String.mk (stripList p0),
      ((pySplit ['\n'] (stripList p1)).filterMap fun p =>
        if stripList p = [] then none else some (lstripDashSpace (stripList p))).map
        String.mk)
  | _ => (String.mk content, [])

/-- `SummaryService._parse_response` (summary_service.py:152-175):
`response_text.split("SUMMARY:")`, field 1 (stripped) when the marker is
present, then the `KEY POINTS:` stage. -/
def parse_response (t : String) : String × List String :=
  match pySplit sumMark t.data with
  | _ :: sec1 :: _ => parse_response_kp (stripList sec1)
  | _ => (t, [])

/-- Outcome record of `SummaryService.generate_summary`: the `Option`
fields model dictionary keys that are absent on the error paths. -/
structure SummaryOutcome where
  error : Option String
  summary : String
  key_points : List String
  word_count : Option Nat
deriving DecidableEq, Repr

/-- `SummaryService.generate_summary` (summary_service.py:29-85).
`envKey` models `self.api_key` (the `OPENAI_API_KEY` environment value,
`""` when unset), `apiKey` the per-request override; `api_key or
self.api_key` is Python truthiness-based defaulting.  `callResult` is the
outcome of the external OpenAI chat call: `.ok` carries the message
content, `.error` the stringified exception. -/
def generate_summary (envKey apiKey transcript : String)
    (callResult : Except String String) : SummaryOutcome :=
  let key := if apiKey ≠ "" then apiKey else envKey
  if key = "" then
    ⟨some "OpenAI API key not configured", "", [], none⟩
  else if transcript = "" then
    ⟨some "Empty transcript provided", "", [], none⟩
  else
    match callResult with
    | .error e => ⟨some ("Error generating summary: " ++ e), "", [], none⟩
    | .ok text =>
      let (s, kp) := parse_response (pyStrip text)
      ⟨none, s, kp, some (pyWords s.data).length⟩

/-! ## PostGenerationService (src/app/services/post_generation_service.py) -/

/-- The scan behind `re.findall(r'#(\w+)', post_content)`: each `#`
followed by at least one word character yields the maximal word-character
run after it, left to right, non-overlapping. -/
def findHashtags : List Char → List (List Char)
  | [] => []
  | c :: cs =>
    if c = '#' then
      match cs.takeWhile isWordChar with
      | [] => findHashtags cs
      | w :: ws => (w :: ws) :: findHashtags (cs.dropWhile isWordChar)
    else findHashtags cs
termination_by l => l.length
decreasing_by
  · simp
  · have := (List.dropWhile_suffix (l := cs) isWordChar).length_le
    simp only [List.length_cons]
    omega
  · simp

/-- `PostGenerationService._extract_hashtags` (post_generation_service.py:177-181). -/
def extract_hashtags (post_content : String) : List String :=
  (findHashtags post_content.data).map fun w => String.mk ('#' :: w)

/-- The read-time estimate computed inside `generate_post`
(post_generation_service.py:89-94), as a function of the character count.
The Python float division `character_count / 1325` is modelled by exact
natural division, with which it agrees at realistic counts. -/
def readTime (count : Nat) : String :=
  if count < 1325 then "Less than a minute"
  else "About " ++ toString (count / 1325) ++ " minute" ++
    (if count / 1325 > 1 then "s" else "")

/-- Outcome record of `PostGenerationService.generate_post`: `Option`
fields model dictionary keys absent on the error paths. -/
structure PostOutcome where
  error : Option String
  post_content : String
  character_count : Option Nat
  estimated_read_time : Option String
  hashtags_used : Option (List String)
deriving DecidableEq, Repr

/-- `PostGenerationService.generate_post` (post_generation_service.py:34-102),
with the same conventions as `generate_summary`. -/
def generate_post (envKey apiKey summary : String)
    (callResult : Except String String) : PostOutcome :=
  let key := if apiKey ≠ "" then apiKey else envKey
  if key = "" then
    ⟨some "OpenAI API key not configured", "", none, none, none⟩
  else if summary = "" then
    ⟨some "Empty summary provided", "", none, none, none⟩
  else
    match callResult with
    | .error e => ⟨some ("Error generating LinkedIn post: " ++ e), "", none, none, none⟩
    | .ok text =>
      let pc := pyStrip text
      ⟨none, pc, some pc.data.length, some (readTime pc.data.length),
        some (extract_hashtags pc)⟩

/-! ## OutputService (src/app/services/output_service.py) -/

/-- The `content` field of `OutputService.format_output`'s result: either
the raw post string (text branch) or the structured
`{post_content, character_count}` object (json branch). -/
inductive OutContent where
  | text (s : String)
  | json (post_content : String) (character_count : Nat)
deriving DecidableEq, Repr

/-- Result of `OutputService.format_output`; `error` models the `"error"`
key, which no reachable path sets (the `try` body cannot raise). -/
structure FormatResult where
  error : Option String
  content : OutContent
  format : String
deriving DecidableEq, Repr

/-- `OutputService.format_output` (output_service.py:12-38).  `format` is
the string value of the `OutputFormat` enum member (a `str` enum, so the
comparison with `OutputFormat.JSON` is a comparison with `"json"`); every
non-`"json"` tag takes the plain-text branch. -/
def format_output (post_content : String) (format : String) : FormatResult :=
  if format = "json" then
    ⟨none, .json post_content post_content.data.length, format⟩
  else
    ⟨none, .text post_content, format⟩

/-! ## TranscriptService (src/app/services/transcript_service.py) -/

/-- Failure modes of `extract_video_id`: the explicit
`ValueError("Could not extract video ID from URL: ...")` at the end of
the function, the `KeyError` from `parse_qs(...)['v']` when `v` is
absent, and the `IndexError` from `[...][0]` on an empty value list
(unreachable for real `parse_qs` output, which never stores empty
lists). -/
inductive ExtractErr where
  | invalidUrl
  | keyError
  | indexError
deriving DecidableEq, Repr

/-- The `urlparse`/`parse_qs` view of a URL consumed by
`extract_video_id`: the function reads only `netloc`, `path` and the
parsed query dictionary (`urllib.parse` is standard-library code, outside
this repository). -/
structure ParsedUrl where
  netloc : String
  path : String
  query : List (String × List String)
deriving DecidableEq, Repr

/-- Python dict lookup on the `parse_qs` result. -/
def lookup_qs (q : List (String × List String)) (k : String) : Option (List String) :=
  (q.find? fun p => p.1 == k).map Prod.snd

/-- `TranscriptService.extract_video_id` (transcript_service.py:18-35). -/
def extract_video_id (u : ParsedUrl) : Except ExtractErr String :=
  if u.netloc = "youtu.be" then
    .ok (String.mk (u.path.data.drop 1))
  else if u.netloc = "www.youtube.com" ∨ u.netloc = "youtube.com" then
    if u.path = "/watch" then
      match lookup_qs u.query "v" with
      | none => .error .keyError
      | some [] => .error .indexError
      | some (v :: _) => .ok v
    else if "/embed/".data.isPrefixOf u.path.data then
      .ok (String.mk ((pySplit ['/'] u.path.data).getD 2 []))
    else if "/v/".data.isPrefixOf u.path.data then
      .ok (String.mk ((pySplit ['/'] u.path.data).getD 2 []))
    else .error .invalidUrl
  else .error .invalidUrl

/-- Tail of a digit string as accepted by Python `int`: digits with
single underscores allowed between digits. -/
def validDigitTail : List Char → Bool
  | [] => true
  | c :: cs =>
    if c = '_' then
      match cs with
      | [] => false
      | c' :: cs' => c'.isDigit && validDigitTail cs'
    else c.isDigit && validDigitTail cs

/-- Numeric value of a digit string. -/
def digitsVal (l : List Char) : Nat :=
  l.foldl (fun a c => a * 10 + (c.toNat - 48)) 0

/-- An unsigned integer literal as accepted by Python `int`: non-empty,
leading digit, digits with single interior underscores. -/
def pyIntOfDigits (l : List Char) : Option Nat :=
  match l with
  | [] => none
  | c :: cs =>
    if c.isDigit && validDigitTail cs then some (digitsVal (l.filter (· != '_')))
    else none

/-- Optional sign then an underscore-grouped digit string: Python `int`
after its whitespace strip. -/
def pyIntSigned : List Char → Option Int
  | [] => none
  | c :: r =>
    if c = '+' then (pyIntOfDigits r).map Int.ofNat
    else if c = '-' then (pyIntOfDigits r).map fun n => -(n : Int)
    else (pyIntOfDigits (c :: r)).map Int.ofNat

/-- Python `int(str)` (ASCII model): strip whitespace, optional sign,
then an underscore-grouped digit string; `none` is the `ValueError`. -/
def pyInt (l : List Char) : Option Int :=
  pyIntSigned (stripList l)

/-- One `if letter in duration:` step of `_parse_duration`: component
value from `split(letter)[0]` and the remaining text `split(letter)[1]`. -/
def unitStep (u : Char) (d : List Char) : Option (Int × List Char) :=
  if u ∈ d then
    match pyInt ((pySplit [u] d).getD 0 []) with
    | none => none
    | some v => some (v, (pySplit [u] d).getD 1 [])
  else some (0, d)

/-- The body of `_parse_duration` after the unconditional two-character
slice; `none` models the uncaught `ValueError` from `int`. -/
def durationCore (d0 : List Char) : Option Int :=
  match unitStep 'H' d0 with
  | none => none
  | some (hours, d1) =>
    match unitStep 'M' d1 with
    | none => none
    | some (minutes, d2) =>
      match (if 'S' ∈ d2 then pyInt ((pySplit ['S'] d2).getD 0 []) else some 0) with
      | none => none
      | some seconds => some (hours * 3600 + minutes * 60 + seconds)

/-- `TranscriptService._parse_duration` (transcript_service.py:78-99):
`duration_str[2:]` followed by the H/M/S steps. -/
def parse_duration (s : String) : Option Int :=
  durationCore (s.data.drop 2)

/-! ### `_clean_transcript` (transcript_service.py:135-149)

Four `re.sub` passes and a final `strip()`.  Each regex is simple enough
that greedy matching is deterministic (no productive backtracking), so
each pass is modelled as a direct scan. -/

/-- Match `\[\d+:\d+\]` at the head of the list; on success return the
rest of the input after the match. -/
def tsMatch (l : List Char) : Option (List Char) :=
  match l with
  | [] => none
  | c :: r =>
    if c = '[' then
      if (r.takeWhile Char.isDigit).isEmpty then none
      else
        match r.dropWhile Char.isDigit with
        | [] => none
        | c2 :: r2 =>
          if c2 = ':' then
            if (r2.takeWhile Char.isDigit).isEmpty then none
            else
              match r2.dropWhile Char.isDigit with
              | [] => none
              | c3 :: r4 => if c3 = ']' then some r4 else none
          else none
    else none

theorem tsMatch_length {l r : List Char} (h : tsMatch l = some r) :
    r.length < l.length := by
  unfold tsMatch at h
  split at h
  · cases h
  · rename_i c rest
    split at h
    · split at h
      · cases h
      · split at h
        · cases h
        · rename_i c2 r2 heq1
          split at h
          · split at h
            · cases h
            · split at h
              · cases h
              · rename_i c3 r4 heq2
                split at h
                · cases h
                  have h1 := (List.dropWhile_suffix (l := rest) Char.isDigit).length_le
                  have h2 := (List.dropWhile_suffix (l := r2) Char.isDigit).length_le
                  rw [heq1] at h1
                  rw [heq2] at h2
                  simp only [List.length_cons] at h1 h2 ⊢
                  omega
                · cases h
          · cases h
    · cases h

/-- Pass 1, `re.sub(r'\[\d+:\d+\]', '', transcript)`: delete the
non-overlapping timestamp matches, scanning left to right. -/
def sub1 : List Char → List Char
  | [] => []
  | c :: cs =>
    match h : tsMatch (c :: cs) with
    | some rest => sub1 rest
    | none => c :: sub1 cs
termination_by l => l.length
decreasing_by
  · exact tsMatch_length h
  · simp

/-- Match `\s*\w+\s*:` at a line start; on success return the input
after the match.  Greedy matching is deterministic here because `\s`,
`\w` and `:` are pairwise disjoint. -/
def speakerMatch (l : List Char) : Option (List Char) :=
  match (l.dropWhile isPySpace).takeWhile isWordChar with
  | [] => none
  | _ :: _ =>
    match ((l.dropWhile isPySpace).dropWhile isWordChar).dropWhile isPySpace with
    | [] => none
    | c :: rest => if c = ':' then some rest else none

theorem speakerMatch_length {l r : List Char} (h : speakerMatch l = some r) :
    r.length < l.length := by
  unfold speakerMatch at h
  split at h
  · cases h
  · rename_i w ws hw
    split at h
    · cases h
    · rename_i c rest hrest
      split at h
      · cases h
        have h0 := (List.dropWhile_suffix (l := l) isPySpace).length_le
        have h1 :
            (l.dropWhile isPySpace).takeWhile isWordChar ++
              (l.dropWhile isPySpace).dropWhile isWordChar = l.dropWhile isPySpace :=
          List.takeWhile_append_dropWhile _ _
        have h2 := (List.dropWhile_suffix
          (l := (l.dropWhile isPySpace).dropWhile isWordChar) isPySpace).length_le
        rw [hrest] at h2
        have h3 : ((l.dropWhile isPySpace).takeWhile isWordChar).length +
            ((l.dropWhile isPySpace).dropWhile isWordChar).length =
            (l.dropWhile isPySpace).length := by
          rw [← List.length_append, h1]
        rw [hw] at h3
        simp only [List.length_cons] at h2 h3
        omega
      · cases h

/-- Pass 2, `re.sub(r'^\s*\w+\s*:', '', transcript, flags=re.MULTILINE)`:
at every line start of the original string (position 0 or a position
preceded by a newline), delete a speaker-label match; `atStart` tracks
whether the current position is a line start. -/
def sub2core : List Char → Bool → List Char
  | l, true =>
    match h : speakerMatch l with
    | some rest => sub2core rest false
    | none =>
      match l with
      | [] => []
      | c :: cs => c :: sub2core cs (c = '\n')
  | l, false =>
    match l with
    | [] => []
    | c :: cs => c :: sub2core cs (c = '\n')
termination_by l _ => l.length
decreasing_by
  · exact speakerMatch_length h
  · simp
  · simp

/-- Pass 2 proper: matching starts at the beginning of the string, a
line start. -/
def sub2 (l : List Char) : List Char := sub2core l true

/-- Pass 3, `re.sub(r'\s+', ' ', transcript)`: replace each maximal
whitespace run by a single space. -/
def collapse : List Char → List Char
  | [] => []
  | c :: cs =>
    if isPySpace c then ' ' :: collapse (cs.dropWhile isPySpace)
    else c :: collapse cs
termination_by l => l.length
decreasing_by
  · have := (List.dropWhile_suffix (l := cs) isPySpace).length_le
    simp only [List.length_cons]
    omega
  · simp

/-- The character class kept by pass 4, `[^\w\s.,?!-]` negated:
word characters, whitespace and `.`, `,`, `?`, `!`, `-`. -/
def keepChar (c : Char) : Bool :=
  isWordChar c || isPySpace c || c = '.' || c = ',' || c = '?' || c = '!' || c = '-'

/-- `TranscriptService._clean_transcript`, on character lists. -/
def cleanList (l : List Char) : List Char :=
  stripList ((collapse (sub2 (sub1 l))).filter keepChar)

/-- `TranscriptService._clean_transcript` (transcript_service.py:135-149). -/
def clean_transcript (s : String) : String :=
  String.mk (cleanList s.data)

/-! ## Claim C4: the duration parser -/

theorem dropWhile_eq_self_of_all {p : Char → Bool} {l : List Char}
    (h : ∀ x ∈ l, p x = false) : l.dropWhile p = l := by
  cases l with
  | nil => rfl
  | cons c cs => rw [List.dropWhile_cons, if_neg (by simp [h c (by simp)])]

theorem dropWhile_eq_nil_of_all {p : Char → Bool} {l : List Char}
    (h : ∀ x ∈ l, p x = true) : l.dropWhile p = [] := by
  induction l with
  | nil => rfl
  | cons c cs ih =>
    rw [List.dropWhile_cons, if_pos (h c (by simp))]
    exact ih fun x hx => h x (by simp [hx])

theorem stripList_eq_self_of_no_space {l : List Char}
    (h : ∀ x ∈ l, isPySpace x = false) : stripList l = l := by
  unfold stripList stripLeft stripRight
  rw [dropWhile_eq_self_of_all h,
    dropWhile_eq_self_of_all fun x hx => h x (List.mem_reverse.mp hx),
    List.reverse_reverse]

theorem splitFirst_first_occ {c : Char} {a b : List Char} (h : ∀ x ∈ a, x ≠ c) :
    splitFirst [c] (a ++ c :: b) = some (a, b) := by
  rw [splitFirst_singleton]
  have hda : a.dropWhile (· != c) = [] :=
    dropWhile_eq_nil_of_all fun x hx => by simp [h x hx]
  have hta : a.takeWhile (· != c) = a :=
    List.takeWhile_eq_self_iff.mpr fun x hx => by simp [h x hx]
  have hd : (a ++ c :: b).dropWhile (· != c) = c :: b := by
    rw [List.dropWhile_append, hda]
    simp [List.dropWhile_cons]
  have ht : (a ++ c :: b).takeWhile (· != c) = a := by
    rw [List.takeWhile_append, hta, if_pos rfl]
    simp [List.takeWhile_cons]
  rw [hd, ht]

theorem splitFirst_none_of_not_mem {c : Char} {l : List Char} (h : c ∉ l) :
    splitFirst [c] l = none := by
  rw [splitFirst_singleton,
    dropWhile_eq_nil_of_all fun x hx => by simp; exact fun he => h (he ▸ hx)]

theorem pySplit_first_occ {c : Char} {a b : List Char} (ha : ∀ x ∈ a, x ≠ c)
    (hb : c ∉ b) : pySplit [c] (a ++ c :: b) = [a, b] := by
  rw [pySplit_of_some (by simp) (splitFirst_first_occ ha),
    pySplit_of_none (splitFirst_none_of_not_mem hb)]

theorem isPySpace_eq_false_of_isDigit {c : Char} (h : c.isDigit = true) :
    isPySpace c = false := by
  by_contra hc
  rw [Bool.not_eq_false, isPySpace] at hc
  simp only [Bool.or_eq_true, decide_eq_true_eq] at hc
  rcases hc with ((((h1 | h1) | h1) | h1) | h1) | h1 <;>
    (subst h1; exact absurd h (by decide))

theorem validDigitTail_of_digits {l : List Char} (h : ∀ x ∈ l, x.isDigit = true) :
    validDigitTail l = true := by
  induction l with
  | nil => rfl
  | cons c cs ih =>
    have hcne : ¬ c = '_' := fun he => absurd (h c (by simp)) (by rw [he]; decide)
    rw [validDigitTail.eq_def]
    dsimp only
    rw [if_neg hcne]
    simp only [Bool.and_eq_true]
    exact ⟨h c (by simp), ih fun x hx => h x (by simp [hx])⟩

theorem pyInt_digits {l : List Char} (hne : l ≠ []) (h : ∀ x ∈ l, x.isDigit = true) :
    pyInt l = some (Int.ofNat (digitsVal l)) := by
  have hstrip : stripList l = l :=
    stripList_eq_self_of_no_space fun x hx => isPySpace_eq_false_of_isDigit (h x hx)
  rw [pyInt, hstrip]
  cases l with
  | nil => exact absurd rfl hne
  | cons c cs =>
    have hcd : c.isDigit = true := h c (by simp)
    simp only [pyIntSigned,
      if_neg (show ¬ c = '+' from fun he => absurd hcd (by rw [he]; decide)),
      if_neg (show ¬ c = '-' from fun he => absurd hcd (by rw [he]; decide))]
    rw [pyIntOfDigits.eq_def]
    dsimp only
    rw [if_pos (show (c.isDigit && validDigitTail cs) = true by
      simp only [Bool.and_eq_true]
      exact ⟨hcd, validDigitTail_of_digits fun x hx => h x (by simp [hx])⟩)]
    rw [List.filter_eq_self.mpr fun a ha => by
      simp only [bne_iff_ne, ne_eq]
      exact fun he => absurd (h a ha) (by rw [he]; decide)]
    rfl

theorem ne_of_digit_all {u : Char} (hu : u.isDigit = false) {l : List Char}
    (hl : ∀ x ∈ l, x.isDigit = true) : ∀ x ∈ l, x ≠ u := by
  intro x hx he
  subst he
  rw [hl x hx] at hu
  cases hu

theorem unitStep_first_occ {u : Char} {a b : List Char} (ha : a ≠ [])
    (hd : ∀ x ∈ a, x.isDigit = true) (hnb : u ∉ b) (hu : u.isDigit = false) :
    unitStep u (a ++ u :: b) = some ((digitsVal a : Int), b) := by
  have hsp := pySplit_first_occ (ne_of_digit_all hu hd) hnb
  rw [unitStep, if_pos (by simp), hsp,
    show ([a, b] : List (List Char)).getD 0 [] = a from rfl,
    show ([a, b] : List (List Char)).getD 1 [] = b from rfl,
    pyInt_digits ha hd]
  rfl

theorem durationCore_digits (hd md sd : List Char)
    (hhd : hd ≠ []) (hmd : md ≠ []) (hsd : sd ≠ [])
    (h1 : ∀ x ∈ hd, x.isDigit = true) (h2 : ∀ x ∈ md, x.isDigit = true)
    (h3 : ∀ x ∈ sd, x.isDigit = true) :
    durationCore (hd ++ 'H' :: (md ++ 'M' :: (sd ++ ['S']))) =
      some ((digitsVal hd : Int) * 3600 + (digitsVal md : Int) * 60 + digitsVal sd) := by
  have hHnotsuff : 'H' ∉ md ++ 'M' :: (sd ++ ['S']) := by
    intro hmem
    rcases List.mem_append.mp hmem with hm | hm
    · exact absurd (h2 _ hm) (by decide)
    · rcases List.mem_cons.mp hm with hm | hm
      · cases hm
      · rcases List.mem_append.mp hm with hm | hm
        · exact absurd (h3 _ hm) (by decide)
        · simp at hm
  have hMnotsuff : 'M' ∉ sd ++ ['S'] := by
    intro hmem
    rcases List.mem_append.mp hmem with hm | hm
    · exact absurd (h3 _ hm) (by decide)
    · simp at hm
  have hS : 'S' ∈ sd ++ ['S'] := by simp
  have hspS : pySplit ['S'] (sd ++ ['S']) = [sd, []] := by
    have hrw : sd ++ ['S'] = sd ++ 'S' :: [] := rfl
    rw [hrw]
    exact pySplit_first_occ (ne_of_digit_all (by decide) h3) (by simp)
  simp only [durationCore,
    unitStep_first_occ hhd h1 hHnotsuff (by decide),
    unitStep_first_occ hmd h2 hMnotsuff (by decide),
    if_pos hS, hspS,
    show ([sd, []] : List (List Char)).getD 0 [] = sd from rfl,
    pyInt_digits hsd h3]
  rfl

unseal pySplit in
/-- C4 corrected: the claim that non-`PT` prefixes fail is refuted —
`_parse_duration` slices the first two characters off unconditionally, so
the result depends only on the remainder (first conjunct), and e.g.
`"XX5M"` parses to 300 instead of failing.  It does fail when the text
before a present unit letter does not parse as a Python int (`"PT5xM"`),
and well-formed strings yield `hours*3600 + minutes*60 + seconds` with
missing components defaulting to 0 (remaining conjuncts). -/
theorem C4_parse_duration :
    (∀ a b r : String, a.length = 2 → b.length = 2 →
      parse_duration (a ++ r) = parse_duration (b ++ r)) ∧
    parse_duration "PT1H2M3S" = some 3723 ∧
    parse_duration "PT45S" = some 45 ∧
    parse_duration "PT2H" = some 7200 ∧
    parse_duration "PT" = some 0 ∧
    parse_duration "PT5xM" = none ∧
    parse_duration "XX5M" = some 300 ∧
    (∀ hd md sd : List Char, hd ≠ [] → md ≠ [] → sd ≠ [] →
      (∀ x ∈ hd, x.isDigit = true) → (∀ x ∈ md, x.isDigit = true) →
      (∀ x ∈ sd, x.isDigit = true) →
      parse_duration (String.mk ('P' :: 'T' :: (hd ++ 'H' :: (md ++ 'M' :: (sd ++ ['S']))))) =
        some ((digitsVal hd : Int) * 3600 + (digitsVal md : Int) * 60 + digitsVal sd)) := by
  refine ⟨?_, by decide, by decide, by decide, by decide, by decide, by decide, ?_⟩
  · intro a b r ha hb
    unfold parse_duration
    have hda : a.data.length = 2 := ha
    have hdb : b.data.length = 2 := hb
    rw [String.data_append, String.data_append,
      show (2 : Nat) = a.data.length from hda.symm, List.drop_left, hda,
      show (2 : Nat) = b.data.length from hdb.symm, List.drop_left]
  · intro hd md sd hhd hmd hsd h1 h2 h3
    unfold parse_duration
    exact durationCore_digits hd md sd hhd hmd hsd h1 h2 h3

unseal pySplit in
/-- C4 witness: the prefix-invariance at `"PT"`/`"XY"` and the component
formula at single digits. -/
theorem C4_parse_duration_witness :
    parse_duration ("PT" ++ "5M") = parse_duration ("XY" ++ "5M") ∧
    parse_duration
        (String.mk ('P' :: 'T' :: (['1'] ++ 'H' :: (['2'] ++ 'M' :: (['3'] ++ ['S']))))) =
      some ((digitsVal ['1'] : Int) * 3600 + (digitsVal ['2'] : Int) * 60 + digitsVal ['3']) :=
  ⟨C4_parse_duration.1 "PT" "XY" "5M" (by decide) (by decide),
   (C4_parse_duration.2.2.2.2.2.2.2) ['1'] ['2'] ['3'] (by decide) (by decide) (by decide)
     (by decide) (by decide) (by decide)⟩

unseal pySplit in
/-- C4 counterexample: `"XX5M"` does not start with `"PT"` yet
`_parse_duration` returns 300 rather than failing. -/
theorem C4_counterexample :
    parse_duration "XX5M" = some 300 ∧ ¬ "PT".data.isPrefixOf "XX5M".data :=
  ⟨by decide, by decide⟩

/-! ## Claim C10: the read-time estimate -/

theorem readTime_eq_iff (m : Nat) :
    (readTime m = "Less than a minute" ↔ m < 1325) ∧
    (1325 ≤ m → readTime m = "About " ++ toString (m / 1325) ++ " minute" ++
      (if m / 1325 = 1 then "" else "s")) := by
  by_cases h : m < 1325
  · refine ⟨by simp [readTime, h], fun h2 => absurd h2 (by omega)⟩
  · have h' : 1325 ≤ m := by omega
    have hne : readTime m ≠ "Less than a minute" := by
      rw [readTime, if_neg h]
      intro heq
      have hh := congrArg (fun s => s.data.head?) heq
      simp only [String.data_append] at hh
      exact absurd (show ('A' : Char) = 'L' from Option.some.inj hh) (by decide)
    refine ⟨⟨fun hh => absurd hh hne, fun hlt => absurd hlt (by omega)⟩, fun _ => ?_⟩
    rw [readTime, if_neg h]
    have h1 : 0 < m / 1325 := Nat.div_pos h' (by norm_num)
    by_cases he : m / 1325 = 1
    · rw [he]
      norm_num
    · have hgt : m / 1325 > 1 := by omega
      rw [if_pos hgt, if_neg he]

/-- C10: for every successful `generate_post` result, `estimated_read_time`
is determined by `character_count` alone: it is `"Less than a minute"`
exactly when the count is below 1325, and otherwise `"About N minutes"`
with `N = character_count / 1325`, the plural `s` dropped exactly when
`N = 1`. -/
theorem C10_estimated_read_time (ek ak sm txt : String) (n : Nat) (s : String)
    (hc : (generate_post ek ak sm (Except.ok txt)).character_count = some n)
    (hs : (generate_post ek ak sm (Except.ok txt)).estimated_read_time = some s) :
    (s = "Less than a minute" ↔ n < 1325) ∧
    (1325 ≤ n → s = "About " ++ toString (n / 1325) ++ " minute" ++
      (if n / 1325 = 1 then "" else "s")) := by
  simp only [generate_post] at hc hs
  by_cases h1 : (if ak ≠ "" then ak else ek) = ""
  · rw [if_pos h1] at hc
    cases hc
  · rw [if_neg h1] at hc hs
    by_cases h2 : sm = ""
    · rw [if_pos h2] at hc
      cases hc
    · rw [if_neg h2] at hc hs
      have hn : n = (pyStrip txt).data.length := (Option.some.inj hc).symm
      have hsval : s = readTime (pyStrip txt).data.length := (Option.some.inj hs).symm
      subst hn
      subst hsval
      exact readTime_eq_iff _

/-- C10 witness: a concrete successful generation with character count 5. -/
theorem C10_estimated_read_time_witness :
    ("Less than a minute" = "Less than a minute" ↔ 5 < 1325) ∧
    (1325 ≤ 5 → "Less than a minute" = "About " ++ toString (5 / 1325) ++ " minute" ++
      (if 5 / 1325 = 1 then "" else "s")) :=
  C10_estimated_read_time "k" "" "s" "world" 5 "Less than a minute" rfl rfl

/-! ## Claim C6: the output formatter -/

/-- C6 counterexample: `format_output "hello" "bogus"` does not fail with
any `UnsupportedFormatError`; it returns the content unchanged with no
error set, refuting "for every unrecognized format tag fails with
UnsupportedFormatError". -/
theorem C6_counterexample :
    (format_output "hello" "bogus").error = none ∧
    (format_output "hello" "bogus").content = OutContent.text "hello" := by
  decide

/-- C6 (amended): `format_output` with tag `"json"` returns the structured
object `{post_content, character_count = length}`; with tag `"text"` or
any other tag — unrecognized tags included — it returns the content string
unchanged and never fails (unknown tags are rejected upstream by the
request model's enum validation, not here). -/
theorem C6_format_output (pc fmt : String) :
    format_output pc "json" = ⟨none, OutContent.json pc pc.data.length, "json"⟩ ∧
    (fmt ≠ "json" → format_output pc fmt = ⟨none, OutContent.text pc, fmt⟩) := by
  refine ⟨by rw [format_output, if_pos rfl], fun h => by rw [format_output, if_neg h]⟩

/-- C6 witness: both branches at concrete inputs. -/
theorem C6_format_output_witness :
    format_output "hello" "json" =
      ⟨none, OutContent.json "hello" "hello".data.length, "json"⟩ ∧
    format_output "hello" "text" = ⟨none, OutContent.text "hello", "text"⟩ :=
  ⟨(C6_format_output "hello" "text").1, (C6_format_output "hello" "text").2 (by decide)⟩

/-! ## Claim C5: hashtag extraction -/

unseal findHashtags in
/-- C5 counterexample: a post body containing the same hashtag twice
yields a `hashtags_used` list with a duplicate — it is not the set-like
list of unique tags the claim describes. -/
theorem C5_counterexample :
    (generate_post "k" "" "s" (Except.ok "#a #a")).hashtags_used = some ["#a", "#a"] ∧
    ¬ (["#a", "#a"] : List String).Nodup :=
  ⟨rfl, by decide⟩

theorem findHashtags_sound {l w : List Char} (h : w ∈ findHashtags l) :
    w ≠ [] ∧ ∀ c ∈ w, isWordChar c := by
  induction l using findHashtags.induct with
  | case1 => simp [findHashtags] at h
  | case2 cs htw ih =>
    simp only [findHashtags, htw, if_pos rfl] at h
    exact ih h
  | case3 cs w0 ws htw ih =>
    simp only [findHashtags, htw, if_pos rfl] at h
    rcases List.mem_cons.mp h with hw | hw
    · subst hw
      refine ⟨by simp, fun c hc => ?_⟩
      rw [← htw] at hc
      exact List.mem_takeWhile_imp hc
    · exact ih hw
  | case4 c cs hne ih =>
    simp only [findHashtags, if_neg hne] at h
    exact ih h

/-- C5 (amended): `hashtags_used` lists every `#token` occurrence of the
post content in order, possibly with duplicates (no deduplication is
performed); each entry is `#` followed by a non-empty run of word
characters. -/
theorem C5_hashtags_used_shape (ek ak sm txt : String) (hsl : List String)
    (hh : (generate_post ek ak sm (Except.ok txt)).hashtags_used = some hsl)
    (s : String) (hmem : s ∈ hsl) :
    ∃ w, w ≠ [] ∧ (∀ c ∈ w, isWordChar c) ∧ s = String.mk ('#' :: w) := by
  simp only [generate_post] at hh
  by_cases h1 : (if ak ≠ "" then ak else ek) = ""
  · rw [if_pos h1] at hh
    cases hh
  · rw [if_neg h1] at hh
    by_cases h2 : sm = ""
    · rw [if_pos h2] at hh
      cases hh
    · rw [if_neg h2] at hh
      have : hsl = extract_hashtags (pyStrip txt) := (Option.some.inj hh).symm
      subst this
      unfold extract_hashtags at hmem
      obtain ⟨w, hw, rfl⟩ := List.mem_map.mp hmem
      obtain ⟨hne, hall⟩ := findHashtags_sound hw
      exact ⟨w, hne, hall, rfl⟩

unseal findHashtags in
/-- C5 witness: a concrete extraction. -/
theorem C5_hashtags_used_shape_witness :
    ∃ w, w ≠ [] ∧ (∀ c ∈ w, isWordChar c) ∧ "#ab" = String.mk ('#' :: w) :=
  C5_hashtags_used_shape "k" "" "s" "#ab" ["#ab"] rfl "#ab" (by decide)

/-! ## Claim C7: error results of the two generation services -/

theorem append_ne_empty_of_left {p : String} (hp : p.data ≠ []) (e : String) :
    p ++ e ≠ "" := by
  intro h
  apply hp
  have hd := congrArg String.data h
  rw [String.data_append] at hd
  exact (List.append_eq_nil.mp hd).1

/-- C7: whenever `generate_summary` or `generate_post` fails — missing
API credential, empty transcript or summary, or an exception from the
model call — it returns (rather than raises) a result whose content
fields are the empty defaults and whose error field carries a non-empty
message; a missing credential produces a result of exactly the same
shape as a downstream call failure. -/
theorem C7_error_results (ek ak t : String) (cr : Except String String)
    (ek' ak' sm : String) (cr' : Except String String) :
    (((if ak ≠ "" then ak else ek) = "" ∨ t = "" ∨ (∃ e, cr = Except.error e)) →
      ∃ m, m ≠ "" ∧ generate_summary ek ak t cr = ⟨some m, "", [], none⟩) ∧
    (((if ak' ≠ "" then ak' else ek') = "" ∨ sm = "" ∨ (∃ e, cr' = Except.error e)) →
      ∃ m, m ≠ "" ∧ generate_post ek' ak' sm cr' = ⟨some m, "", none, none, none⟩) := by
  constructor
  · intro h
    by_cases h1 : (if ak ≠ "" then ak else ek) = ""
    · refine ⟨"OpenAI API key not configured", by decide, ?_⟩
      simp only [generate_summary]
      rw [if_pos h1]
    · by_cases h2 : t = ""
      · refine ⟨"Empty transcript provided", by decide, ?_⟩
        simp only [generate_summary]
        rw [if_neg h1, if_pos h2]
      · rcases h with h | h | ⟨e, he⟩
        · exact absurd h h1
        · exact absurd h h2
        · subst he
          refine ⟨"Error generating summary: " ++ e,
            append_ne_empty_of_left (by decide) e, ?_⟩
          simp only [generate_summary]
          rw [if_neg h1, if_neg h2]
  · intro h
    by_cases h1 : (if ak' ≠ "" then ak' else ek') = ""
    · refine ⟨"OpenAI API key not configured", by decide, ?_⟩
      simp only [generate_post]
      rw [if_pos h1]
    · by_cases h2 : sm = ""
      · refine ⟨"Empty summary provided", by decide, ?_⟩
        simp only [generate_post]
        rw [if_neg h1, if_pos h2]
      · rcases h with h | h | ⟨e, he⟩
        · exact absurd h h1
        · exact absurd h h2
        · subst he
          refine ⟨"Error generating LinkedIn post: " ++ e,
            append_ne_empty_of_left (by decide) e, ?_⟩
          simp only [generate_post]
          rw [if_neg h1, if_neg h2]

/-- C7 witness: a missing credential for the summarizer and an empty
summary for the post generator. -/
theorem C7_error_results_witness :
    (∃ m, m ≠ "" ∧ generate_summary "" "" "t" (Except.ok "x") =
      ⟨some m, "", [], none⟩) ∧
    (∃ m, m ≠ "" ∧ generate_post "k" "" "" (Except.ok "y") =
      ⟨some m, "", none, none, none⟩) :=
  ⟨(C7_error_results "" "" "t" (Except.ok "x") "k" "" "" (Except.ok "y")).1
      (Or.inl (by decide)),
   (C7_error_results "" "" "t" (Except.ok "x") "k" "" "" (Except.ok "y")).2
      (Or.inr (Or.inl rfl))⟩

/-! ## Claims C1 and C9: the URL parser -/

/-- C9 counterexample: `https://youtu.be` parses with an empty path, and
`extract_video_id` succeeds with the empty string — the returned id is
neither non-empty nor an alphabet token. -/
theorem C9_counterexample :
    ¬ ∀ (u : ParsedUrl) (r : String), extract_video_id u = Except.ok r →
        0 < r.length ∧ ∀ c ∈ r.data, isWordChar c ∨ c = '_' ∨ c = '-' := by
  intro h
  exact absurd (h ⟨"youtu.be", "", []⟩ "" rfl).1 (by decide)

/-- C9 (amended): success of `extract_video_id` guarantees only that one
of the recognized host/shape combinations matched; the returned id is the
raw extracted substring, with no non-emptiness or alphabet validation
(it can be empty, as for `youtu.be` with an empty path). -/
theorem C9_success_shape (u : ParsedUrl) (r : String)
    (h : extract_video_id u = Except.ok r) :
    u.netloc = "youtu.be" ∨
      ((u.netloc = "www.youtube.com" ∨ u.netloc = "youtube.com") ∧
        (u.path = "/watch" ∨ "/embed/".data.isPrefixOf u.path.data = true ∨
          "/v/".data.isPrefixOf u.path.data = true)) := by
  unfold extract_video_id at h
  by_cases h1 : u.netloc = "youtu.be"
  · exact Or.inl h1
  · rw [if_neg h1] at h
    by_cases h2 : u.netloc = "www.youtube.com" ∨ u.netloc = "youtube.com"
    · rw [if_pos h2] at h
      refine Or.inr ⟨h2, ?_⟩
      by_cases h3 : u.path = "/watch"
      · exact Or.inl h3
      · rw [if_neg h3] at h
        by_cases h4 : "/embed/".data.isPrefixOf u.path.data = true
        · exact Or.inr (Or.inl h4)
        · rw [if_neg h4] at h
          by_cases h5 : "/v/".data.isPrefixOf u.path.data = true
          · exact Or.inr (Or.inr h5)
          · rw [if_neg h5] at h
            cases h
    · rw [if_neg h2] at h
      cases h

/-- C9 witness: a concrete successful parse. -/
theorem C9_success_shape_witness :
    (ParsedUrl.mk "youtu.be" "/abc" []).netloc = "youtu.be" ∨
      (((ParsedUrl.mk "youtu.be" "/abc" []).netloc = "www.youtube.com" ∨
        (ParsedUrl.mk "youtu.be" "/abc" []).netloc = "youtube.com") ∧
        ((ParsedUrl.mk "youtu.be" "/abc" []).path = "/watch" ∨
          "/embed/".data.isPrefixOf (ParsedUrl.mk "youtu.be" "/abc" []).path.data = true ∨
          "/v/".data.isPrefixOf (ParsedUrl.mk "youtu.be" "/abc" []).path.data = true)) :=
  C9_success_shape ⟨"youtu.be", "/abc", []⟩ "abc" rfl

/-- C1 counterexample: for `youtu.be` with a multi-segment path the code
returns the entire remaining path, not the first path segment. -/
theorem C1_counterexample :
    extract_video_id ⟨"youtu.be", "/abc/def", []⟩ = Except.ok "abc/def" ∧
    "abc/def" ≠ "abc" := ⟨rfl, by decide⟩

theorem getD_zero_eq_head_getD (xs : List (List Char)) :
    xs.getD 0 [] = xs.head?.getD [] := by
  cases xs <;> rfl

theorem pySplit_head_takeWhile (c : Char) (l : List Char) :
    (pySplit [c] l).getD 0 [] = l.takeWhile (· != c) := by
  rw [pySplit_singleton, getD_zero_eq_head_getD, splitChar_head]
  rfl

theorem pySplit_after_prefix {mid rest : List Char} (hm : ∀ x ∈ mid, x ≠ '/') :
    (pySplit ['/'] ('/' :: (mid ++ '/' :: rest))).getD 2 [] =
      rest.takeWhile (· != '/') := by
  have h1 : splitFirst ['/'] ('/' :: (mid ++ '/' :: rest)) =
      some ([], mid ++ '/' :: rest) := by
    have h0 := splitFirst_first_occ (c := '/') (a := ([] : List Char))
      (b := mid ++ '/' :: rest) (by simp)
    simpa using h0
  rw [pySplit_of_some (by simp) h1,
    pySplit_of_some (by simp) (splitFirst_first_occ hm)]
  rw [show (([] : List Char) :: mid :: pySplit ['/'] rest).getD 2 [] =
    (pySplit ['/'] rest).getD 0 [] from rfl]
  exact pySplit_head_takeWhile '/' rest

/-- `extract_video_id` as the amended claim reads: host `youtu.be` yields
the entire path after the leading slash; `/watch` yields the first `v`
value and fails when `v` is absent; `/embed/` and `/v/` yield the single
path segment directly following the prefix (up to the next `/`); any
other host or path fails. -/
def extract_video_id_amended (u : ParsedUrl) : Except ExtractErr String :=
  if u.netloc = "youtu.be" then
    .ok (String.mk (u.path.data.drop 1))
  else if u.netloc = "www.youtube.com" ∨ u.netloc = "youtube.com" then
    if u.path = "/watch" then
      match lookup_qs u.query "v" with
      | none => .error .keyError
      | some [] => .error .indexError
      | some (v :: _) => .ok v
    else if "/embed/".data.isPrefixOf u.path.data then
      .ok (String.mk ((u.path.data.drop 7).takeWhile (· != '/')))
    else if "/v/".data.isPrefixOf u.path.data then
      .ok (String.mk ((u.path.data.drop 3).takeWhile (· != '/')))
    else .error .invalidUrl
  else .error .invalidUrl

/-- C1 (amended): `extract_video_id` recognizes exactly the four shapes
in priority order and behaves as `extract_video_id_amended` spells out:
for `youtu.be` the id is the whole path after the leading slash (the
first path segment only when the path has a single segment); `/watch`
yields the `v` parameter and fails when it is absent; `/embed/` and `/v/`
yield the segment following the prefix; everything else fails with the
`ValueError` (`InvalidUrlError`). -/
theorem C1_video_id_refinement (u : ParsedUrl) :
    extract_video_id u = extract_video_id_amended u := by
  unfold extract_video_id extract_video_id_amended
  by_cases h1 : u.netloc = "youtu.be"
  · rw [if_pos h1, if_pos h1]
  · rw [if_neg h1, if_neg h1]
    by_cases h2 : u.netloc = "www.youtube.com" ∨ u.netloc = "youtube.com"
    · rw [if_pos h2, if_pos h2]
      by_cases h3 : u.path = "/watch"
      · rw [if_pos h3, if_pos h3]
      · rw [if_neg h3, if_neg h3]
        by_cases h4 : "/embed/".data.isPrefixOf u.path.data = true
        · rw [if_pos h4, if_pos h4]
          obtain ⟨rest, hrest⟩ := List.isPrefixOf_iff_prefix.mp h4
          have hpath : u.path.data = '/' :: ("embed".data ++ '/' :: rest) := by
            rw [← hrest]
            rfl
          rw [hpath, pySplit_after_prefix (by decide),
            show ('/' :: ("embed".data ++ '/' :: rest)).drop 7 = rest from rfl]
        · rw [if_neg h4, if_neg h4]
          by_cases h5 : "/v/".data.isPrefixOf u.path.data = true
          · rw [if_pos h5, if_pos h5]
            obtain ⟨rest, hrest⟩ := List.isPrefixOf_iff_prefix.mp h5
            have hpath : u.path.data = '/' :: ("v".data ++ '/' :: rest) := by
              rw [← hrest]
              rfl
            rw [hpath, pySplit_after_prefix (by decide),
              show ('/' :: ("v".data ++ '/' :: rest)).drop 3 = rest from rfl]
          · rw [if_neg h5, if_neg h5]
    · rw [if_neg h2, if_neg h2]

/-! ## Unfolding equations for the cleaner passes -/

theorem sub1_nil : sub1 [] = [] := by
  rw [sub1.eq_def]

theorem sub1_eq_some {l rest : List Char} (h : tsMatch l = some rest) :
    sub1 l = sub1 rest := by
  cases l with
  | nil => rw [show tsMatch [] = none from rfl] at h; cases h
  | cons c cs =>
    rw [sub1.eq_def]
    dsimp only
    split
    · rename_i rest' heq
      rw [heq] at h
      cases h
      rfl
    · rename_i heq
      rw [heq] at h
      cases h

theorem sub1_eq_none {c : Char} {cs : List Char} (h : tsMatch (c :: cs) = none) :
    sub1 (c :: cs) = c :: sub1 cs := by
  rw [sub1.eq_def]
  dsimp only
  split
  · rename_i rest' heq
    rw [heq] at h
    cases h
  · rfl

theorem sub2core_nil (b : Bool) : sub2core [] b = [] := by
  cases b <;> rw [sub2core.eq_def] <;> rfl

theorem sub2core_false_cons (c : Char) (cs : List Char) :
    sub2core (c :: cs) false = c :: sub2core cs (c = '\n') := by
  rw [sub2core.eq_def]

theorem sub2core_true_some {l rest : List Char} (h : speakerMatch l = some rest) :
    sub2core l true = sub2core rest false := by
  rw [sub2core.eq_def]
  dsimp only
  split
  · rename_i rest' heq
    rw [heq] at h
    cases h
    rfl
  · rename_i heq
    rw [heq] at h
    cases h

theorem sub2core_true_cons {c : Char} {cs : List Char}
    (h : speakerMatch (c :: cs) = none) :
    sub2core (c :: cs) true = c :: sub2core cs (c = '\n') := by
  rw [sub2core.eq_def]
  dsimp only
  split
  · rename_i rest' heq
    rw [heq] at h
    cases h
  · rfl

theorem collapse_nil : collapse [] = [] := by
  rw [collapse.eq_def]

theorem collapse_cons_space {c : Char} {cs : List Char} (h : isPySpace c = true) :
    collapse (c :: cs) = ' ' :: collapse (cs.dropWhile isPySpace) := by
  rw [collapse.eq_def]
  dsimp only
  rw [if_pos h]

theorem collapse_cons_nospace {c : Char} {cs : List Char} (h : isPySpace c = false) :
    collapse (c :: cs) = c :: collapse cs := by
  rw [collapse.eq_def]
  dsimp only
  rw [if_neg (by simp [h])]

/-! ## Claim C8: the cleaner never lengthens its input -/

theorem sub1_length_le (l : List Char) : (sub1 l).length ≤ l.length := by
  induction l using sub1.induct with
  | case1 => rw [sub1_nil]
  | case2 c cs rest h ih =>
    rw [sub1_eq_some h]
    have := tsMatch_length h
    omega
  | case3 c cs h ih =>
    rw [sub1_eq_none h]
    simp only [List.length_cons]
    omega

theorem sub2core_length_le (l : List Char) (b : Bool) :
    (sub2core l b).length ≤ l.length := by
  have key : ∀ (n : Nat) (l : List Char) (b : Bool), l.length ≤ n →
      (sub2core l b).length ≤ l.length := by
    intro n
    induction n with
    | zero =>
      intro l b hl
      have hnil : l = [] := List.length_eq_zero.mp (Nat.le_zero.mp hl)
      subst hnil
      rw [sub2core_nil]
    | succ n ih =>
      intro l b hl
      cases b with
      | false =>
        cases l with
        | nil => rw [sub2core_nil]
        | cons c cs =>
          rw [sub2core_false_cons]
          simp only [List.length_cons] at hl ⊢
          have := ih cs (c = '\n') (by omega)
          omega
      | true =>
        cases hsm : speakerMatch l with
        | some rest =>
          rw [sub2core_true_some hsm]
          have hlen := speakerMatch_length hsm
          have := ih rest false (by omega)
          omega
        | none =>
          cases l with
          | nil => rw [sub2core_nil]
          | cons c cs =>
            rw [sub2core_true_cons hsm]
            simp only [List.length_cons] at hl ⊢
            have := ih cs (c = '\n') (by omega)
            omega
  exact key l.length l b le_rfl

theorem collapse_length_le (l : List Char) : (collapse l).length ≤ l.length := by
  have key : ∀ (n : Nat) (l : List Char), l.length ≤ n →
      (collapse l).length ≤ l.length := by
    intro n
    induction n with
    | zero =>
      intro l hl
      have hnil : l = [] := List.length_eq_zero.mp (Nat.le_zero.mp hl)
      subst hnil
      rw [collapse_nil]
    | succ n ih =>
      intro l hl
      cases l with
      | nil => rw [collapse_nil]
      | cons c cs =>
        by_cases hc : isPySpace c = true
        · rw [collapse_cons_space hc]
          have hdw := (List.dropWhile_suffix (l := cs) isPySpace).length_le
          simp only [List.length_cons] at hl ⊢
          have := ih (cs.dropWhile isPySpace) (by omega)
          omega
        · rw [collapse_cons_nospace (by simpa using hc)]
          simp only [List.length_cons] at hl ⊢
          have := ih cs (by omega)
          omega
  exact key l.length l le_rfl

theorem stripList_length_le (l : List Char) : (stripList l).length ≤ l.length := by
  unfold stripList stripRight stripLeft
  have h1 := (List.dropWhile_suffix (l := l) isPySpace).length_le
  have h2 := (List.dropWhile_suffix
    (l := (l.dropWhile isPySpace).reverse) isPySpace).length_le
  simp only [List.length_reverse] at h2 ⊢
  omega

/-- C8 (amended): the cleaned transcript is never longer than the raw
input: `len(clean(x)) ≤ len(x)` for every string. -/
theorem C8_clean_length (s : String) : (clean_transcript s).length ≤ s.length := by
  show (cleanList s.data).length ≤ s.data.length
  unfold cleanList
  have h1 := sub1_length_le s.data
  have h2 := sub2core_length_le (sub1 s.data) true
  have h3 := collapse_length_le (sub2 (sub1 s.data))
  have h4 := List.length_filter_le keepChar (collapse (sub2 (sub1 s.data)))
  have h5 := stripList_length_le ((collapse (sub2 (sub1 s.data))).filter keepChar)
  unfold sub2 at h3 h4 h5 ⊢
  omega

unseal sub1 sub2core collapse in
/-- C8 counterexample: the cleaned text is not built only from characters
of the input — whitespace collapsing rewrites a tab into a space that the
input never contained (`clean("a\tb") = "a b"`). -/
theorem C8_counterexample :
    ' ' ∈ (clean_transcript "a\tb").data ∧ ' ' ∉ "a\tb".data :=
  ⟨by decide, by decide⟩

/-! ## Claim C2: the response section parser -/

/-- The `KEY POINTS:` stage as the amended claim reads: locate the first
`KEY POINTS:` in the segment; absent, the segment (as given) is the
summary with no key points; present, the trimmed text before it is the
summary, and the key points come from the lines of the text after it up
to its next occurrence, each trimmed, stripped of all leading `-` and
space characters, blank lines discarded. -/
def parse_response_kp_amended (content : List Char) : String × List String :=
  match occIdx kpMark content with
  | none => (String.mk content, [])
  | some k =>
    (String.mk (stripList (content.take k)),
      ((pySplit ['\n'] (stripList
          (match occIdx kpMark (content.drop (k + kpMark.length)) with
           | none => content.drop (k + kpMark.length)
           | some j2 => (content.drop (k + kpMark.length)).take j2))).filterMap fun p =>
        if stripList p = [] then none else some (lstripDashSpace (stripList p))).map
        String.mk)

/-- `_parse_response` as the amended claim reads: locate the first
`SUMMARY:`; absent, the whole input is the summary.  Present, take the
text after that marker up to its next occurrence, trim it, and run the
`KEY POINTS:` stage on it. -/
def parse_response_amended (t : String) : String × List String :=
  match occIdx sumMark t.data with
  | none => (t, [])
  | some i =>
    parse_response_kp_amended (stripList
      (match occIdx sumMark (t.data.drop (i + sumMark.length)) with
       | none => t.data.drop (i + sumMark.length)
       | some j => (t.data.drop (i + sumMark.length)).take j))

theorem parse_response_kp_eq (c : List Char) :
    parse_response_kp c = parse_response_kp_amended c := by
  unfold parse_response_kp parse_response_kp_amended
  cases hsf : splitFirst kpMark c with
  | none =>
    rw [pySplit_of_none hsf, (occIdx_none_iff kpMark c).mpr hsf]
  | some p =>
    obtain ⟨a, b⟩ := p
    rw [pySplit_of_some (by decide) hsf, splitFirst_occIdx hsf]
    dsimp only
    have hc := splitFirst_append hsf
    have htake : c.take a.length = a := by
      rw [hc, List.append_assoc]
      exact List.take_left _ _
    have hdrop : c.drop (a.length + kpMark.length) = b := by
      rw [hc, show a.length + kpMark.length = (a ++ kpMark).length by simp]
      exact List.drop_left _ _
    rw [htake, hdrop]
    cases hsf2 : splitFirst kpMark b with
    | none =>
      rw [pySplit_of_none hsf2, (occIdx_none_iff kpMark b).mpr hsf2]
    | some q =>
      obtain ⟨a2, b2⟩ := q
      rw [pySplit_of_some (by decide) hsf2, splitFirst_occIdx hsf2]
      dsimp only
      have htake2 : b.take a2.length = a2 := by
        rw [splitFirst_append hsf2, List.append_assoc]
        exact List.take_left _ _
      rw [htake2]

unseal pySplit in
/-- C2 (amended): `_parse_response` behaves as `parse_response_amended`
spells out — when a marker occurs more than once, the relevant segment
runs only up to the marker's next occurrence (Python split field 1), and
each key-point line is stripped of all leading `-` and space characters;
the claim's concrete example holds as stated. -/
theorem C2_parse_response :
    (∀ t : String, parse_response t = parse_response_amended t) ∧
    parse_response "SUMMARY:\nfoo bar\nKEY POINTS:\n- a\n- b" =
      ("foo bar", ["a", "b"]) := by
  refine ⟨?_, by decide⟩
  intro t
  unfold parse_response parse_response_amended
  cases hsf : splitFirst sumMark t.data with
  | none =>
    rw [pySplit_of_none hsf, (occIdx_none_iff sumMark t.data).mpr hsf]
  | some p =>
    obtain ⟨a, b⟩ := p
    rw [pySplit_of_some (by decide) hsf, splitFirst_occIdx hsf]
    dsimp only
    have hdrop : t.data.drop (a.length + sumMark.length) = b := by
      rw [splitFirst_append hsf,
        show a.length + sumMark.length = (a ++ sumMark).length by simp]
      exact List.drop_left _ _
    rw [hdrop]
    cases hsf2 : splitFirst sumMark b with
    | none =>
      rw [pySplit_of_none hsf2, (occIdx_none_iff sumMark b).mpr hsf2]
      exact parse_response_kp_eq (stripList b)
    | some q =>
      obtain ⟨a2, b2⟩ := q
      rw [pySplit_of_some (by decide) hsf2, splitFirst_occIdx hsf2]
      dsimp only
      have htake : b.take a2.length = a2 := by
        rw [splitFirst_append hsf2, List.append_assoc]
        exact List.take_left _ _
      rw [htake]
      exact parse_response_kp_eq (stripList a2)

unseal pySplit in
/-- C2 counterexample: with a repeated `SUMMARY:` marker the summary is
Python's split field 1 (`"a"`), not "everything after the marker"
(`"aSUMMARY:b"`), refuting the claim as stated. -/
theorem C2_counterexample :
    parse_response "SUMMARY:aSUMMARY:b" = ("a", []) ∧
    ("a", ([] : List String)) ≠ ("aSUMMARY:b", ([] : List String)) :=
  ⟨by decide, by decide⟩

/-! ## Claim C3: idempotence of the cleaner -/

theorem tsMatch_head {l r : List Char} (h : tsMatch l = some r) :
    l.head? = some '[' := by
  unfold tsMatch at h
  split at h
  · cases h
  · rename_i c rest
    split at h
    · rename_i hc
      simp [hc]
    · cases h

theorem sub1_eq_self {l : List Char} (h : '[' ∉ l) : sub1 l = l := by
  induction l using sub1.induct with
  | case1 => exact sub1_nil
  | case2 c cs rest hm ih =>
    have hhd := tsMatch_head hm
    have : c = '[' := by simpa using hhd
    exact absurd (this ▸ List.mem_cons_self c cs) h
  | case3 c cs hm ih =>
    rw [sub1_eq_none hm, ih fun hmem => h (List.mem_cons_of_mem c hmem)]

theorem speakerMatch_colon {l r : List Char} (h : speakerMatch l = some r) :
    ':' ∈ l := by
  unfold speakerMatch at h
  split at h
  · cases h
  · rename_i hw
    split at h
    · cases h
    · rename_i c rest heq
      split at h
      · rename_i hc
        subst hc
        have h1 : ':' ∈ ((l.dropWhile isPySpace).dropWhile isWordChar).dropWhile isPySpace := by
          rw [heq]
          simp
        have h2 := (List.dropWhile_suffix (l := (l.dropWhile isPySpace).dropWhile isWordChar)
          isPySpace).sublist.subset h1
        have h3 := (List.dropWhile_suffix (l := l.dropWhile isPySpace)
          isWordChar).sublist.subset h2
        exact (List.dropWhile_suffix (l := l) isPySpace).sublist.subset h3
      · cases h

theorem sub2core_eq_self {l : List Char} (h : ':' ∉ l) (b : Bool) :
    sub2core l b = l := by
  have key : ∀ (n : Nat) (l : List Char) (b : Bool), l.length ≤ n → ':' ∉ l →
      sub2core l b = l := by
    intro n
    induction n with
    | zero =>
      intro l b hl _
      have hnil : l = [] := List.length_eq_zero.mp (Nat.le_zero.mp hl)
      subst hnil
      exact sub2core_nil b
    | succ n ih =>
      intro l b hl hcol
      cases l with
      | nil => exact sub2core_nil b
      | cons c cs =>
        have htail : ':' ∉ cs := fun hm => hcol (List.mem_cons_of_mem c hm)
        simp only [List.length_cons] at hl
        cases b with
        | false => rw [sub2core_false_cons, ih cs _ (by omega) htail]
        | true =>
          cases hsm : speakerMatch (c :: cs) with
          | some rest => exact absurd (speakerMatch_colon hsm) hcol
          | none => rw [sub2core_true_cons hsm, ih cs _ (by omega) htail]
  exact key l.length l b le_rfl h

theorem head_dropWhile_false {p : Char → Bool} :
    ∀ {l : List Char} {d : Char}, (l.dropWhile p).head? = some d → p d = false := by
  intro l
  induction l with
  | nil => intro d h; cases h
  | cons c cs ih =>
    intro d h
    rw [List.dropWhile_cons] at h
    by_cases hc : p c = true
    · rw [if_pos hc] at h
      exact ih h
    · rw [if_neg hc] at h
      cases h
      simpa using hc

theorem collapse_head? (l : List Char) :
    (collapse l).head? = l.head?.map fun c => if isPySpace c then ' ' else c := by
  cases l with
  | nil => rw [collapse_nil]; rfl
  | cons c cs =>
    by_cases hc : isPySpace c = true
    · rw [collapse_cons_space hc]
      simp [hc]
    · rw [collapse_cons_nospace (by simpa using hc)]
      simp [hc]

theorem mem_collapse {l : List Char} {c : Char} (h : c ∈ collapse l) :
    c = ' ' ∨ c ∈ l := by
  have key : ∀ (n : Nat) (l : List Char), l.length ≤ n → ∀ c, c ∈ collapse l →
      c = ' ' ∨ c ∈ l := by
    intro n
    induction n with
    | zero =>
      intro l hl c hc
      have hnil : l = [] := List.length_eq_zero.mp (Nat.le_zero.mp hl)
      subst hnil
      rw [collapse_nil] at hc
      cases hc
    | succ n ih =>
      intro l hl c hc
      cases l with
      | nil => rw [collapse_nil] at hc; cases hc
      | cons d ds =>
        simp only [List.length_cons] at hl
        by_cases hd : isPySpace d = true
        · rw [collapse_cons_space hd] at hc
          rcases List.mem_cons.mp hc with hcc | hcc
          · exact Or.inl hcc
          · have hlen := (List.dropWhile_suffix (l := ds) isPySpace).length_le
            rcases ih (ds.dropWhile isPySpace) (by omega) c hcc with hcc' | hcc'
            · exact Or.inl hcc'
            · exact Or.inr (List.mem_cons_of_mem d
                ((List.dropWhile_suffix isPySpace).sublist.subset hcc'))
        · rw [collapse_cons_nospace (by simpa using hd)] at hc
          rcases List.mem_cons.mp hc with hcc | hcc
          · exact Or.inr (hcc ▸ List.mem_cons_self d ds)
          · rcases ih ds (by omega) c hcc with hcc' | hcc'
            · exact Or.inl hcc'
            · exact Or.inr (List.mem_cons_of_mem d hcc')
  exact key l.length l le_rfl _ h

theorem collapse_spaces {l : List Char} {c : Char} (hc : c ∈ collapse l)
    (hsp : isPySpace c = true) : c = ' ' := by
  rcases mem_collapse hc with h | h
  · exact h
  · -- a character of the output that came from the input unchanged: show by
    -- induction that non-space characters pass through and space characters
    -- are replaced; here it suffices to rule out a space ≠ ' ' surviving.
    have key : ∀ (n : Nat) (l : List Char), l.length ≤ n → ∀ c, c ∈ collapse l →
        isPySpace c = true → c = ' ' := by
      intro n
      induction n with
      | zero =>
        intro l hl c hcc _
        have hnil : l = [] := List.length_eq_zero.mp (Nat.le_zero.mp hl)
        subst hnil
        rw [collapse_nil] at hcc
        cases hcc
      | succ n ih =>
        intro l hl c hcc hspc
        cases l with
        | nil => rw [collapse_nil] at hcc; cases hcc
        | cons d ds =>
          simp only [List.length_cons] at hl
          by_cases hd : isPySpace d = true
          · rw [collapse_cons_space hd] at hcc
            rcases List.mem_cons.mp hcc with h' | h'
            · exact h'
            · have hlen := (List.dropWhile_suffix (l := ds) isPySpace).length_le
              exact ih (ds.dropWhile isPySpace) (by omega) c h' hspc
          · rw [collapse_cons_nospace (by simpa using hd)] at hcc
            rcases List.mem_cons.mp hcc with h' | h'
            · rw [h'] at hspc
              rw [hspc] at hd
              exact absurd rfl hd
            · exact ih ds (by omega) c h' hspc
    exact key l.length l le_rfl c hc hsp

/-- The adjacency relation of the normalized-whitespace invariant: never
two spaces in a row. -/
def noTwoSpaces (a b : Char) : Prop := ¬(a = ' ' ∧ b = ' ')

theorem collapse_chain (l : List Char) : (collapse l).Chain' noTwoSpaces := by
  have key : ∀ (n : Nat) (l : List Char), l.length ≤ n →
      (collapse l).Chain' noTwoSpaces := by
    intro n
    induction n with
    | zero =>
      intro l hl
      have hnil : l = [] := List.length_eq_zero.mp (Nat.le_zero.mp hl)
      subst hnil
      rw [collapse_nil]
      exact List.chain'_nil
    | succ n ih =>
      intro l hl
      cases l with
      | nil => rw [collapse_nil]; exact List.chain'_nil
      | cons d ds =>
        simp only [List.length_cons] at hl
        by_cases hd : isPySpace d = true
        · rw [collapse_cons_space hd]
          have hlen := (List.dropWhile_suffix (l := ds) isPySpace).length_le
          rw [List.chain'_cons']
          refine ⟨?_, ih (ds.dropWhile isPySpace) (by omega)⟩
          intro y hy
          rw [collapse_head?] at hy
          cases hhd : (ds.dropWhile isPySpace).head? with
          | none => rw [hhd] at hy; cases hy
          | some e =>
            rw [hhd] at hy
            have he : isPySpace e = false := head_dropWhile_false hhd
            have hy2 : e = y := by simpa [he] using hy
            intro hpair
            rw [← hy2] at hpair
            rw [hpair.2] at he
            exact absurd he (by decide)
        · rw [collapse_cons_nospace (by simpa using hd)]
          rw [List.chain'_cons']
          refine ⟨?_, ih ds (by omega)⟩
          intro y _
          intro ⟨hd', _⟩
          rw [hd'] at hd
          exact absurd hd (by decide)
  exact key l.length l le_rfl

theorem collapse_eq_self_of_norm {l : List Char}
    (h1 : ∀ c ∈ l, isPySpace c = true → c = ' ')
    (h2 : l.Chain' noTwoSpaces) : collapse l = l := by
  induction l with
  | nil => exact collapse_nil
  | cons c cs ih =>
    by_cases hc : isPySpace c = true
    · have hc' : c = ' ' := h1 c (by simp) hc
      rw [collapse_cons_space hc]
      have hdw : cs.dropWhile isPySpace = cs := by
        cases cs with
        | nil => rfl
        | cons d ds =>
          rw [List.dropWhile_cons]
          rw [if_neg]
          intro hd
          have hd' : d = ' ' := h1 d (by simp) hd
          rw [List.chain'_cons'] at h2
          have := h2.1 d (by simp)
          exact this ⟨hc', hd'⟩
      rw [hdw, hc']
      rw [ih (fun x hx => h1 x (by simp [hx])) (List.chain'_cons'.mp h2).2]
    · rw [collapse_cons_nospace (by simpa using hc)]
      rw [ih (fun x hx => h1 x (by simp [hx])) (List.chain'_cons'.mp h2).2]

theorem stripRight_prefix (m : List Char) : stripRight m <+: m := by
  have h1 : (stripRight m).reverse <:+ m.reverse := by
    unfold stripRight
    rw [List.reverse_reverse]
    exact List.dropWhile_suffix isPySpace
  exact List.reverse_suffix.mp h1

/-- `stripList l` is a contiguous segment of `l`. -/
theorem stripList_seg (l : List Char) : stripList l <:+: l := by
  obtain ⟨s, hs⟩ := List.dropWhile_suffix (l := l) isPySpace
  obtain ⟨t, ht⟩ := stripRight_prefix (stripLeft l)
  refine ⟨s, t, ?_⟩
  calc s ++ stripList l ++ t = s ++ (stripList l ++ t) := by rw [List.append_assoc]
    _ = s ++ stripLeft l := by rw [show stripList l ++ t = stripLeft l from ht]
    _ = l := hs

theorem mem_of_mem_stripList {c : Char} {l : List Char} (h : c ∈ stripList l) :
    c ∈ l :=
  (stripList_seg l).sublist.subset h

theorem stripList_chain {l : List Char} (h : l.Chain' noTwoSpaces) :
    (stripList l).Chain' noTwoSpaces :=
  List.Chain'.infix h (stripList_seg l)

theorem head?_stripList_not_space {l : List Char} {d : Char}
    (h : (stripList l).head? = some d) : isPySpace d = false := by
  obtain ⟨t, ht⟩ := stripRight_prefix (stripLeft l)
  have hh : (stripLeft l).head? = some d := by
    rw [← show stripList l ++ t = stripLeft l from ht]
    cases hsl : stripList l with
    | nil => rw [hsl] at h; cases h
    | cons x xs =>
      rw [hsl] at h
      rw [List.cons_append]
      exact h
  exact head_dropWhile_false hh

theorem getLast?_stripList_not_space {l : List Char} {d : Char}
    (h : (stripList l).getLast? = some d) : isPySpace d = false := by
  have heq : (stripList l).getLast? = ((stripLeft l).reverse.dropWhile isPySpace).head? := by
    unfold stripList stripRight
    rw [List.getLast?_eq_head?_reverse, List.reverse_reverse]
  rw [heq] at h
  exact head_dropWhile_false h

theorem stripList_eq_self_of_ends {l : List Char}
    (hh : ∀ d, l.head? = some d → isPySpace d = false)
    (hl : ∀ d, l.getLast? = some d → isPySpace d = false) : stripList l = l := by
  have h1 : stripLeft l = l := by
    unfold stripLeft
    cases l with
    | nil => rfl
    | cons c cs => rw [List.dropWhile_cons, if_neg (by simp [hh c rfl])]
  unfold stripList
  rw [h1]
  unfold stripRight
  have h2 : l.reverse.dropWhile isPySpace = l.reverse := by
    cases hr : l.reverse with
    | nil => rfl
    | cons c cs =>
      have hc : l.getLast? = some c := by
        rw [List.getLast?_eq_head?_reverse, hr]
        rfl
      rw [List.dropWhile_cons, if_neg (by simp [hl c hc])]
  rw [h2, List.reverse_reverse]

theorem keepChar_of_mem_cleanList {x : List Char} {c : Char} (h : c ∈ cleanList x) :
    keepChar c = true := by
  unfold cleanList at h
  exact List.of_mem_filter (mem_of_mem_stripList h)

theorem cleanList_of_keepAll {y : List Char} (hk : ∀ c ∈ y, keepChar c = true) :
    cleanList y = stripList (collapse y) := by
  unfold cleanList
  have hlb : '[' ∉ y := fun hm => absurd (hk _ hm) (by decide)
  have hcol : ':' ∉ y := fun hm => absurd (hk _ hm) (by decide)
  have hf : (collapse y).filter keepChar = collapse y :=
    List.filter_eq_self.mpr fun a ha => by
      rcases mem_collapse ha with h' | h'
      · rw [h']
        decide
      · exact hk a h'
  unfold sub2
  rw [sub1_eq_self hlb, sub2core_eq_self hcol true, hf]

theorem cleanList_fixed {z : List Char}
    (hk : ∀ c ∈ z, keepChar c = true)
    (hsp : ∀ c ∈ z, isPySpace c = true → c = ' ')
    (hch : z.Chain' noTwoSpaces)
    (hh : ∀ d, z.head? = some d → isPySpace d = false)
    (hl : ∀ d, z.getLast? = some d → isPySpace d = false) :
    cleanList z = z := by
  rw [cleanList_of_keepAll hk, collapse_eq_self_of_norm hsp hch,
    stripList_eq_self_of_ends hh hl]

theorem cleanList_props {y : List Char} (hk : ∀ c ∈ y, keepChar c = true) :
    (∀ c ∈ cleanList y, isPySpace c = true → c = ' ') ∧
    (cleanList y).Chain' noTwoSpaces ∧
    (∀ d, (cleanList y).head? = some d → isPySpace d = false) ∧
    (∀ d, (cleanList y).getLast? = some d → isPySpace d = false) := by
  rw [cleanList_of_keepAll hk]
  refine ⟨?_, ?_, ?_, ?_⟩
  · intro c hc hscp
    exact collapse_spaces (mem_of_mem_stripList hc) hscp
  · exact stripList_chain (collapse_chain y)
  · exact fun d hd => head?_stripList_not_space hd
  · exact fun d hd => getLast?_stripList_not_space hd

/-- C3 (amended): `_clean_transcript` is not idempotent after one
application — removing a special character can merge two whitespace runs
that the whitespace-collapsing pass (which ran earlier) can no longer
fold — but it is idempotent from the second application on:
`clean (clean (clean x)) = clean (clean x)` for every input. -/
theorem C3_clean_transcript (s : String) :
    clean_transcript (clean_transcript (clean_transcript s)) =
      clean_transcript (clean_transcript s) := by
  show String.mk (cleanList (cleanList (cleanList s.data))) =
    String.mk (cleanList (cleanList s.data))
  have hk1 : ∀ c ∈ cleanList s.data, keepChar c = true :=
    fun c hc => keepChar_of_mem_cleanList hc
  have hk2 : ∀ c ∈ cleanList (cleanList s.data), keepChar c = true :=
    fun c hc => keepChar_of_mem_cleanList hc
  obtain ⟨hsp, hch, hh, hl⟩ := cleanList_props hk1
  rw [cleanList_fixed hk2 hsp hch hh hl]

unseal sub1 sub2core collapse in
/-- C3 counterexample: `clean("a @ b") = "a  b"` (the removal of `@`
leaves two adjacent spaces) but `clean(clean("a @ b")) = "a b"`, so
`clean` is not idempotent as claimed. -/
theorem C3_counterexample :
    clean_transcript (clean_transcript "a @ b") ≠ clean_transcript "a @ b" := by
  decide

end YTL
